import Mathlib

/-!
Shallow embedding of the in-memory key-value store with TTL expiration
(src/minheap.ts and src/db.ts).  JavaScript Map objects are modelled as
functions from String to Option; the two while-loops of the heap are
modelled with explicit fuel (each loop moves its index strictly towards a
bound that never exceeds the heap length, so a fuel of length + 1 never
runs out at any real call site).  Date.now() is modelled by passing the
current time explicitly to the operations that read the clock.
-/

/-- Model of a JavaScript Map with string keys: set overwrites, delete
removes, has tests presence. -/
abbrev StrMap (α : Type) := String → Option α

def StrMap.empty {α : Type} : StrMap α := fun _ => none

def StrMap.set {α : Type} (m : StrMap α) (k : String) (v : α) : StrMap α :=
  fun q => if q = k then some v else m q

def StrMap.delete {α : Type} (m : StrMap α) (k : String) : StrMap α :=
  fun q => if q = k then none else m q

def StrMap.has {α : Type} (m : StrMap α) (k : String) : Bool :=
  (m k).isSome

/-- One slot of the backing array of the heap: from minheap.ts, the array
elements are objects with a key (string) and a val (the timestamp). -/
structure Entry where
  key : String
  val : Int
  deriving DecidableEq, Repr

/-- The MinHeap class of minheap.ts: the backing array and the
key-to-position map. -/
structure MinHeap where
  heap : List Entry
  positions : StrMap Nat

/-- MinHeap constructor: empty array, empty positions map. -/
def MinHeap.new : MinHeap := ⟨[], StrMap.empty⟩

/-- MinHeap.isEmpty. -/
def MinHeap.isEmpty (h : MinHeap) : Bool := h.heap.length == 0

/-- MinHeap.peek: null when empty, otherwise the root heap[0]. -/
def MinHeap.peek (h : MinHeap) : Option Entry :=
  if h.isEmpty then none else h.heap.head?

/-- MinHeap.clear: fresh array and fresh positions map. -/
def MinHeap.clear (_h : MinHeap) : MinHeap := ⟨[], StrMap.empty⟩

/-- MinHeap.parentIndex: Math.floor((index - 1) / 2); only ever invoked
with index greater than 0, where Nat subtraction agrees with JS. -/
def MinHeap.parentIndex (index : Nat) : Nat := (index - 1) / 2

/-- MinHeap.leftChildIndex. -/
def MinHeap.leftChildIndex (index : Nat) : Nat := 2 * index + 1

/-- MinHeap.rightChildIndex. -/
def MinHeap.rightChildIndex (index : Nat) : Nat := 2 * index + 2

/-- The comparison heap[i].val is less than heap[j].val, guarded by the
bounds check that JS performs via short-circuiting (out of bounds gives
false, exactly like i less than length failing first). -/
def MinHeap.valLt (l : List Entry) (i j : Nat) : Bool :=
  match l[i]?, l[j]? with
  | some a, some b => decide (a.val < b.val)
  | _, _ => false

/-- MinHeap.bubbleUp: the while loop, with fuel.  Each iteration either
breaks or swaps the entry at index with its parent, updating the
positions map for both moved keys, and continues from the parent. -/
def MinHeap.bubbleUpF : Nat → MinHeap → Nat → MinHeap
  | 0, h, _ => h
  | fuel + 1, h, index =>
    if index > 0 then
      let parentIdx := MinHeap.parentIndex index
      match h.heap[parentIdx]?, h.heap[index]? with
      | some pe, some ie =>
        if pe.val ≤ ie.val then h
        else
          let heap1 := (h.heap.set parentIdx ie).set index pe
          let pos1 := StrMap.set (StrMap.set h.positions ie.key parentIdx) pe.key index
          MinHeap.bubbleUpF fuel ⟨heap1, pos1⟩ parentIdx
      | _, _ => h
    else h

/-- MinHeap.bubbleDown: the while loop, with fuel.  Note the source uses
an else-if between the two child comparisons, so the right child is only
examined when the left child comparison fails; this is translated
verbatim. -/
def MinHeap.bubbleDownF : Nat → MinHeap → Nat → MinHeap
  | 0, h, _ => h
  | fuel + 1, h, index =>
    let leftIdx := MinHeap.leftChildIndex index
    let rightIdx := MinHeap.rightChildIndex index
    let smallest :=
      if MinHeap.valLt h.heap leftIdx index then leftIdx
      else if MinHeap.valLt h.heap rightIdx index then rightIdx
      else index
    if smallest = index then h
    else
      match h.heap[index]?, h.heap[smallest]? with
      | some ce, some se =>
        let heap1 := (h.heap.set smallest ce).set index se
        let pos1 := StrMap.set (StrMap.set h.positions ce.key smallest) se.key index
        MinHeap.bubbleDownF fuel ⟨heap1, pos1⟩ smallest
      | _, _ => h

/-- MinHeap.update (private helper): overwrite the val of the slot the
positions map points at, then bubble down when the value grew, bubble up
otherwise.  The source reads positions.get(key) with a non-null
assertion; the none branch is unreachable at its one call site. -/
def MinHeap.update (h : MinHeap) (key : String) (newVal : Int) : MinHeap :=
  match h.positions key with
  | none => h
  | some currentIdx =>
    match h.heap[currentIdx]? with
    | none => h
    | some e =>
      let currentValue := e.val
      let h1 : MinHeap := ⟨h.heap.set currentIdx ⟨e.key, newVal⟩, h.positions⟩
      if currentValue < newVal then
        MinHeap.bubbleDownF (h1.heap.length + 1) h1 currentIdx
      else
        MinHeap.bubbleUpF (currentIdx + 1) h1 currentIdx

/-- MinHeap.insert: update when the key is already positioned, otherwise
push at the end, record the position and bubble up from the last slot. -/
def MinHeap.insert (h : MinHeap) (key : String) (val : Int) : MinHeap :=
  if StrMap.has h.positions key then MinHeap.update h key val
  else
    let heap1 := h.heap ++ [⟨key, val⟩]
    let pos1 := StrMap.set h.positions key (heap1.length - 1)
    MinHeap.bubbleUpF heap1.length ⟨heap1, pos1⟩ (heap1.length - 1)

/-- MinHeap.extractMin: pop the last element; when the array is still
non-empty put it at the root, point its key at position 0 and bubble it
down; finally drop the extracted key from the positions map. -/
def MinHeap.extractMin (h : MinHeap) : Option Entry × MinHeap :=
  match h.heap with
  | [] => (none, h)
  | mn :: rest =>
    let endE := (mn :: rest).getLast (List.cons_ne_nil mn rest)
    let popped := (mn :: rest).dropLast
    if popped.length > 0 then
      let heap1 := popped.set 0 endE
      let pos1 := StrMap.set h.positions endE.key 0
      let h2 := MinHeap.bubbleDownF (heap1.length + 1) ⟨heap1, pos1⟩ 0
      (some mn, ⟨h2.heap, StrMap.delete h2.positions mn.key⟩)
    else
      (some mn, ⟨popped, StrMap.delete h.positions mn.key⟩)

/-- The dynamically typed values of db.ts, as the tagged union the spec
asks for: numeric values (the ones incr and decr accept) and the
non-numeric payloads exercised by the repository (strings, booleans). -/
inductive Value where
  | num : Int → Value
  | str : String → Value
  | bool : Bool → Value
  deriving DecidableEq, Repr

/-- The typeof value check of incr and decr. -/
def Value.isNumber : Value → Bool
  | .num _ => true
  | _ => false

/-- JavaScript truthiness of a value, needed because get returns
store.get(key) OR-ed with null: 0, the empty string and false are falsy. -/
def Value.truthy : Value → Bool
  | .num n => decide (n ≠ 0)
  | .str s => decide (s ≠ "")
  | .bool b => b

/-- The errors db.ts raises: incr and decr throw when the stored value is
not a number (the TypeMismatch of the design taxonomy). -/
inductive DBError where
  | typeMismatch : String → DBError
  deriving DecidableEq, Repr

/-- The InMemoryDB class of db.ts: the value store and the TTL heap.  The
garbage collector interval handle carries no data we reason about; the
periodic sweep is modelled by invoking collectExpiredKeys explicitly with
the clock value at which it fires. -/
structure InMemoryDB where
  store : StrMap Value
  ttlStore : MinHeap

/-- InMemoryDB constructor. -/
def InMemoryDB.new : InMemoryDB := ⟨StrMap.empty, MinHeap.new⟩

/-- InMemoryDB.set: writes the store and nothing else (in particular the
TTL heap is untouched by the source). -/
def InMemoryDB.set (s : InMemoryDB) (key : String) (value : Value) : InMemoryDB :=
  ⟨StrMap.set s.store key value, s.ttlStore⟩

/-- InMemoryDB.del: removes the key from the store and nothing else. -/
def InMemoryDB.del (s : InMemoryDB) (key : String) : InMemoryDB :=
  ⟨StrMap.delete s.store key, s.ttlStore⟩

/-- InMemoryDB.expire: computes Date.now() + seconds * 1000 and inserts
it into the TTL heap, with no existence check on the store. -/
def InMemoryDB.expire (s : InMemoryDB) (key : String) (seconds now : Int) : InMemoryDB :=
  let expirationTime := now + seconds * 1000
  ⟨s.store, MinHeap.insert s.ttlStore key expirationTime⟩

/-- The while loop of collectExpiredKeys, with fuel: while the heap peek
is non-null and its val is at most now, extract the minimum and delete
its key from the store.  Each iteration shrinks the heap by one, so a
fuel of heap length + 1 never runs out. -/
def InMemoryDB.collectExpiredKeysF : Nat → InMemoryDB → Int → InMemoryDB
  | 0, s, _ => s
  | fuel + 1, s, now =>
    match MinHeap.peek s.ttlStore with
    | some e =>
      if e.val ≤ now then
        let r := MinHeap.extractMin s.ttlStore
        let s1 : InMemoryDB := ⟨s.store, r.2⟩
        let s2 :=
          match r.1 with
          | some expiringKey => InMemoryDB.del s1 expiringKey.key
          | none => s1
        InMemoryDB.collectExpiredKeysF fuel s2 now
      else s
    | none => s

/-- InMemoryDB.collectExpiredKeys at clock value now. -/
def InMemoryDB.collectExpiredKeys (s : InMemoryDB) (now : Int) : InMemoryDB :=
  InMemoryDB.collectExpiredKeysF (s.ttlStore.heap.length + 1) s now

/-- InMemoryDB.get: first runs collectExpiredKeys, then returns
store.get(key) OR-ed with null, so an absent key and a falsy stored value
both yield null.  Returns the answer together with the mutated state. -/
def InMemoryDB.get (s : InMemoryDB) (key : String) (now : Int) : Option Value × InMemoryDB :=
  let s1 := InMemoryDB.collectExpiredKeys s now
  let r :=
    match s1.store key with
    | some v => if Value.truthy v then some v else none
    | none => none
  (r, s1)

/-- InMemoryDB.incr: absent key is created with 1; a non-numeric value
throws before any mutation; otherwise the successor is stored and
returned. -/
def InMemoryDB.incr (s : InMemoryDB) (key : String) : Except DBError Int × InMemoryDB :=
  match s.store key with
  | none => (Except.ok 1, ⟨StrMap.set s.store key (Value.num 1), s.ttlStore⟩)
  | some value =>
    match value with
    | Value.num n =>
      let newValue := n + 1
      (Except.ok newValue, ⟨StrMap.set s.store key (Value.num newValue), s.ttlStore⟩)
    | _ => (Except.error (DBError.typeMismatch key), s)

/-- InMemoryDB.decr: mirror image of incr with -1 and predecessor. -/
def InMemoryDB.decr (s : InMemoryDB) (key : String) : Except DBError Int × InMemoryDB :=
  match s.store key with
  | none => (Except.ok (-1), ⟨StrMap.set s.store key (Value.num (-1)), s.ttlStore⟩)
  | some value =>
    match value with
    | Value.num n =>
      let newValue := n - 1
      (Except.ok newValue, ⟨StrMap.set s.store key (Value.num newValue), s.ttlStore⟩)
    | _ => (Except.error (DBError.typeMismatch key), s)

/-- InMemoryDB.exists, renamed because exists is reserved in Lean. -/
def InMemoryDB.existsKey (s : InMemoryDB) (key : String) : Bool :=
  StrMap.has s.store key

/-- InMemoryDB.flushAll: clears the store and the TTL heap (the interval
cancellation carries no modelled state). -/
def InMemoryDB.flushAll (s : InMemoryDB) : InMemoryDB :=
  ⟨StrMap.empty, MinHeap.clear s.ttlStore⟩

/-- The database states reachable from a fresh instance through the
public operations (get runs the sweep, so sweeps at arbitrary clock
values are covered). -/
inductive InMemoryDB.Reachable : InMemoryDB → Prop where
  | new : InMemoryDB.Reachable InMemoryDB.new
  | set (s : InMemoryDB) (k : String) (v : Value) :
      InMemoryDB.Reachable s → InMemoryDB.Reachable (InMemoryDB.set s k v)
  | get (s : InMemoryDB) (k : String) (now : Int) :
      InMemoryDB.Reachable s → InMemoryDB.Reachable (InMemoryDB.get s k now).2
  | del (s : InMemoryDB) (k : String) :
      InMemoryDB.Reachable s → InMemoryDB.Reachable (InMemoryDB.del s k)
  | expire (s : InMemoryDB) (k : String) (seconds now : Int) :
      InMemoryDB.Reachable s → InMemoryDB.Reachable (InMemoryDB.expire s k seconds now)
  | incr (s : InMemoryDB) (k : String) :
      InMemoryDB.Reachable s → InMemoryDB.Reachable (InMemoryDB.incr s k).2
  | decr (s : InMemoryDB) (k : String) :
      InMemoryDB.Reachable s → InMemoryDB.Reachable (InMemoryDB.decr s k).2
  | flushAll (s : InMemoryDB) :
      InMemoryDB.Reachable s → InMemoryDB.Reachable (InMemoryDB.flushAll s)

/-- Bool test of the min-heap order on the backing array: every non-root
index has a parent whose val is at most its own. -/
def heapOrderedB (l : List Entry) : Bool :=
  (List.range l.length).all fun i =>
    i == 0 ||
      match l[i]?, l[MinHeap.parentIndex i]? with
      | some e, some pe => decide (pe.val ≤ e.val)
      | _, _ => true

/-- Four inserts into a fresh heap: the backing array becomes
a:1, b:10, c:5, d:20 (no swap fires on the way in). -/
def hC0 : MinHeap :=
  MinHeap.insert (MinHeap.insert (MinHeap.insert
    (MinHeap.insert MinHeap.new "a" 1) "b" 10) "c" 5) "d" 20

/-- The heap left behind by one extractMin on hC0: the root a:1 leaves,
the tail d:20 replaces it and bubbles down on the left spine only. -/
def hC1 : MinHeap := (MinHeap.extractMin hC0).2

/-- The database holding a, b, c, d with expirations 1000, 10000, 5000
and 20000 registered at clock 0. -/
def sExp : InMemoryDB :=
  InMemoryDB.expire (InMemoryDB.expire (InMemoryDB.expire (InMemoryDB.expire
    (InMemoryDB.set (InMemoryDB.set (InMemoryDB.set (InMemoryDB.set
      InMemoryDB.new "a" (Value.num 1)) "b" (Value.num 2)) "c" (Value.num 3))
      "d" (Value.num 4))
    "a" 1 0) "b" 10 0) "c" 5 0) "d" 20 0

/-- After a get at clock 1500 sweeps the entry a:1000 out of sExp, the
TTL heap is left as b:10000, d:20000, c:5000: the due-at-5000 entry for c
is buried below the b:10000 root. -/
def sBuried : InMemoryDB := (InMemoryDB.get sExp "a" 1500).2

/-- Overwrite scenario: set a, register a 100 second TTL at clock 0, then
set a again. -/
def sC4 : InMemoryDB :=
  InMemoryDB.set (InMemoryDB.expire
    (InMemoryDB.set InMemoryDB.new "a" (Value.num 1)) "a" 100 0)
    "a" (Value.num 2)

/-- Delete scenario: a holds a value and a 5 second TTL registered at
clock 0. -/
def sC6pre : InMemoryDB :=
  InMemoryDB.expire (InMemoryDB.set InMemoryDB.new "a" (Value.num 1)) "a" 5 0

/-- Frame-effect scenario: old holds a value with a 1 second TTL from
clock 0, req holds a value with no TTL. -/
def sFrame : InMemoryDB :=
  InMemoryDB.set (InMemoryDB.expire
    (InMemoryDB.set InMemoryDB.new "old" (Value.num 1)) "old" 1 0)
    "req" (Value.num 2)

/-- The predicate picking the heap entries that carry a given key. -/
def keyIs (k : String) : Entry → Bool := fun e => e.key == k

/-- Consistency of a heap state, parametrised by an optional key whose
positions entry is allowed to be stale (extractMin deletes the extracted
key from the positions map only after bubbling down, so in between that
one key may point anywhere while no array entry carries it).
pos_sound: every non-stale key the positions map knows sits at the
recorded array index with that key.  pos_complete: every array entry is
recorded at its own index and does not carry the stale key. -/
structure HeapInv (h : MinHeap) (bad : Option String) : Prop where
  pos_sound : ∀ k i, h.positions k = some i → some k ≠ bad →
    ∃ e, h.heap[i]? = some e ∧ e.key = k
  pos_complete : ∀ i e, h.heap[i]? = some e →
    h.positions e.key = some i ∧ some e.key ≠ bad

/-- Prepending the element stored at position j and overwriting that
position permutes the list: the two elements trade places. -/
theorem cons_set_perm {α : Type} (a b : α) (j : Nat) (t : List α)
    (hb : t[j]? = some b) : List.Perm (b :: t.set j a) (a :: t) := by
  induction t generalizing j with
  | nil => simp at hb
  | cons y t2 ih =>
    cases j with
    | zero =>
      have hyb : y = b := by simpa using hb
      simp only [List.set_cons_zero]
      rw [← hyb]
      exact List.Perm.swap a y t2
    | succ j2 =>
      have hb2 : t2[j2]? = some b := by simpa using hb
      have p1 : List.Perm (b :: y :: t2.set j2 a) (y :: b :: t2.set j2 a) :=
        List.Perm.swap y b _
      have p2 : List.Perm (y :: b :: t2.set j2 a) (y :: a :: t2) :=
        List.Perm.cons y (ih j2 hb2)
      have p3 : List.Perm (y :: a :: t2) (a :: y :: t2) := List.Perm.swap a y t2
      simpa using p1.trans (p2.trans p3)

/-- Swapping the entries at two distinct positions permutes the list. -/
theorem list_swap_perm {α : Type} :
    ∀ (l : List α) (i j : Nat) (a b : α),
      l[i]? = some a → l[j]? = some b → i ≠ j →
      List.Perm ((l.set i b).set j a) l := by
  intro l
  induction l with
  | nil => intro i j a b hi _ _; simp at hi
  | cons x t ih =>
    intro i j a b hi hj hij
    cases i with
    | zero =>
      have hxa : x = a := by simpa using hi
      cases j with
      | zero => exact absurd rfl hij
      | succ j2 =>
        have hb : t[j2]? = some b := by simpa using hj
        rw [hxa]
        simpa using cons_set_perm a b j2 t hb
    | succ i2 =>
      cases j with
      | zero =>
        have hxb : x = b := by simpa using hj
        have ha : t[i2]? = some a := by simpa using hi
        rw [hxb]
        simpa using cons_set_perm b a i2 t ha
      | succ j2 =>
        have step := ih i2 j2 a b (by simpa using hi) (by simpa using hj)
          (by omega)
        simpa using List.Perm.cons x step

/-- Two array slots of a consistent heap never carry the same key. -/
theorem heapInv_distinct {h : MinHeap} {bad : Option String}
    (hInv : HeapInv h bad) {i j : Nat} {e e2 : Entry}
    (hi : h.heap[i]? = some e) (hj : h.heap[j]? = some e2)
    (hk : e.key = e2.key) : i = j := by
  have h1 := (hInv.pos_complete i e hi).1
  have h2 := (hInv.pos_complete j e2 hj).1
  rw [hk] at h1
  exact Option.some_inj.mp (h1.symm.trans h2)

/-- The swap both while-loops perform (exchange two array slots, then
re-point both moved keys) preserves consistency. -/
theorem heapInv_swap {l : List Entry} {pos : StrMap Nat} {bad : Option String}
    (hInv : HeapInv ⟨l, pos⟩ bad) {i j : Nat} {ei ej : Entry}
    (hi : l[i]? = some ei) (hj : l[j]? = some ej) (hij : i ≠ j) :
    HeapInv ⟨(l.set i ej).set j ei,
      StrMap.set (StrMap.set pos ej.key i) ei.key j⟩ bad := by
  have hilen : i < l.length := by
    rcases List.getElem?_eq_some_iff.mp hi with ⟨hh, _⟩; exact hh
  have hjlen : j < l.length := by
    rcases List.getElem?_eq_some_iff.mp hj with ⟨hh, _⟩; exact hh
  have hkeys : ei.key ≠ ej.key := by
    intro hk; exact hij (heapInv_distinct hInv hi hj hk)
  constructor
  · intro k m hm hkbad
    by_cases hkei : k = ei.key
    · subst hkei
      simp only [StrMap.set, if_pos rfl] at hm
      have hmj : m = j := (Option.some_inj.mp hm).symm
      subst hmj
      refine ⟨ei, ?_, rfl⟩
      rw [List.getElem?_set_self (by simpa using hjlen)]
    · by_cases hkej : k = ej.key
      · subst hkej
        simp only [StrMap.set, if_neg hkei, if_pos rfl] at hm
        have hmi : m = i := (Option.some_inj.mp hm).symm
        subst hmi
        refine ⟨ej, ?_, rfl⟩
        rw [List.getElem?_set_ne (fun hh => hij hh.symm),
          List.getElem?_set_self hilen]
      · simp only [StrMap.set, if_neg hkei, if_neg hkej] at hm
        obtain ⟨e, he, hek⟩ := hInv.pos_sound k m hm hkbad
        have hmi : m ≠ i := by
          intro hh; subst hh
          rw [hi] at he
          exact hkei (hek ▸ congrArg Entry.key (Option.some_inj.mp he)).symm
        have hmj : m ≠ j := by
          intro hh; subst hh
          rw [hj] at he
          exact hkej (hek ▸ congrArg Entry.key (Option.some_inj.mp he)).symm
        refine ⟨e, ?_, hek⟩
        rw [List.getElem?_set_ne (fun hh => hmj hh.symm),
          List.getElem?_set_ne (fun hh => hmi hh.symm)]
        exact he
  · intro m e hme
    by_cases hmj : m = j
    · subst hmj
      rw [List.getElem?_set_self (by simpa using hjlen)] at hme
      obtain rfl : ei = e := Option.some_inj.mp hme
      have hbadei := (hInv.pos_complete i ei hi).2
      refine ⟨?_, hbadei⟩
      simp [StrMap.set]
    · by_cases hmi : m = i
      · subst hmi
        rw [List.getElem?_set_ne (fun hh => hmj hh.symm),
          List.getElem?_set_self hilen] at hme
        obtain rfl : ej = e := Option.some_inj.mp hme
        have hbadej := (hInv.pos_complete j ej hj).2
        refine ⟨?_, hbadej⟩
        simp [StrMap.set, hkeys.symm]
      · rw [List.getElem?_set_ne (fun hh => hmj hh.symm),
          List.getElem?_set_ne (fun hh => hmi hh.symm)] at hme
        have hold := hInv.pos_complete m e hme
        have hnei : e.key ≠ ei.key := by
          intro hh
          have hp := (hInv.pos_complete i ei hi).1
          rw [← hh] at hp
          exact hmi (Option.some_inj.mp (hold.1.symm.trans hp))
        have hnej : e.key ≠ ej.key := by
          intro hh
          have hp := (hInv.pos_complete j ej hj).1
          rw [← hh] at hp
          exact hmj (Option.some_inj.mp (hold.1.symm.trans hp))
        refine ⟨?_, hold.2⟩
        simpa [StrMap.set, hnei, hnej] using hold.1

/-- The bubble-up loop preserves heap consistency, for any fuel. -/
theorem bubbleUpF_inv (bad : Option String) :
    ∀ (fuel : Nat) (h : MinHeap) (index : Nat),
      HeapInv h bad → HeapInv (MinHeap.bubbleUpF fuel h index) bad := by
  intro fuel
  induction fuel with
  | zero => intro h index hInv; simpa [MinHeap.bubbleUpF] using hInv
  | succ f ih =>
    intro h index hInv
    simp only [MinHeap.bubbleUpF]
    split
    · split
      · split
        · exact hInv
        · rename_i hpos _ _ hpe hie _
          refine ih _ _ ?_
          have hne : MinHeap.parentIndex index ≠ index := by
            have hd := Nat.div_le_self (index - 1) 2
            unfold MinHeap.parentIndex
            omega
          exact heapInv_swap hInv hpe hie hne
      · exact hInv
    · exact hInv

/-- The bubble-down loop preserves heap consistency, for any fuel. -/
theorem bubbleDownF_inv (bad : Option String) :
    ∀ (fuel : Nat) (h : MinHeap) (index : Nat),
      HeapInv h bad → HeapInv (MinHeap.bubbleDownF fuel h index) bad := by
  intro fuel
  induction fuel with
  | zero => intro h index hInv; simpa [MinHeap.bubbleDownF] using hInv
  | succ f ih =>
    intro h index hInv
    simp only [MinHeap.bubbleDownF]
    split
    · split
      · exact hInv
      · rename_i hne
        split
        · rename_i hce hse
          exact ih _ _ (heapInv_swap hInv hse hce (fun hh => hne hh))
        · exact hInv
    · split
      · split
        · exact hInv
        · rename_i hne
          split
          · rename_i hce hse
            exact ih _ _ (heapInv_swap hInv hse hce (fun hh => hne hh))
          · exact hInv
      · rw [if_pos rfl]
        exact hInv

/-- The bubble-up loop permutes the backing array. -/
theorem bubbleUpF_perm :
    ∀ (fuel : Nat) (h : MinHeap) (index : Nat),
      List.Perm (MinHeap.bubbleUpF fuel h index).heap h.heap := by
  intro fuel
  induction fuel with
  | zero => intro h index; simp only [MinHeap.bubbleUpF]; exact List.Perm.refl _
  | succ f ih =>
    intro h index
    simp only [MinHeap.bubbleUpF]
    split
    · split
      · split
        · exact List.Perm.refl _
        · rename_i hpos _ _ hpe hie _
          have hne : MinHeap.parentIndex index ≠ index := by
            have hd := Nat.div_le_self (index - 1) 2
            unfold MinHeap.parentIndex
            omega
          exact (ih _ _).trans (list_swap_perm h.heap _ _ _ _ hpe hie hne)
      · exact List.Perm.refl _
    · exact List.Perm.refl _

/-- The bubble-down loop permutes the backing array. -/
theorem bubbleDownF_perm :
    ∀ (fuel : Nat) (h : MinHeap) (index : Nat),
      List.Perm (MinHeap.bubbleDownF fuel h index).heap h.heap := by
  intro fuel
  induction fuel with
  | zero => intro h index; simp only [MinHeap.bubbleDownF]; exact List.Perm.refl _
  | succ f ih =>
    intro h index
    simp only [MinHeap.bubbleDownF]
    split
    · split
      · exact List.Perm.refl _
      · rename_i hne
        split
        · rename_i hce hse
          exact (ih _ _).trans
            (list_swap_perm h.heap _ _ _ _ hse hce (fun hh => hne hh))
        · exact List.Perm.refl _
    · split
      · split
        · exact List.Perm.refl _
        · rename_i hne
          split
          · rename_i hce hse
            exact (ih _ _).trans
              (list_swap_perm h.heap _ _ _ _ hse hce (fun hh => hne hh))
          · exact List.Perm.refl _
      · rw [if_pos rfl]

/-- Overwriting the val of a slot while keeping its key preserves heap
consistency (the positions map is untouched and all keys stay put). -/
theorem heapInv_setval {l : List Entry} {pos : StrMap Nat} {bad : Option String}
    {idx : Nat} {e : Entry} (hInv : HeapInv ⟨l, pos⟩ bad)
    (he : l[idx]? = some e) (v : Int) :
    HeapInv ⟨l.set idx (Entry.mk e.key v), pos⟩ bad := by
  have hlen : idx < l.length := (List.getElem?_eq_some_iff.mp he).1
  constructor
  · intro k m hm hkbad
    obtain ⟨e2, he2, hek⟩ := hInv.pos_sound k m hm hkbad
    by_cases hmi : m = idx
    · subst hmi
      rw [he] at he2
      obtain rfl : e = e2 := Option.some_inj.mp he2
      refine ⟨Entry.mk e.key v, ?_, hek⟩
      rw [List.getElem?_set_self hlen]
    · refine ⟨e2, ?_, hek⟩
      rw [List.getElem?_set_ne (fun hh => hmi hh.symm)]
      exact he2
  · intro m e2 hme
    by_cases hmi : m = idx
    · subst hmi
      rw [List.getElem?_set_self hlen] at hme
      obtain rfl : Entry.mk e.key v = e2 := Option.some_inj.mp hme
      exact hInv.pos_complete _ e he
    · rw [List.getElem?_set_ne (fun hh => hmi hh.symm)] at hme
      exact hInv.pos_complete m e2 hme

/-- Reduction of MinHeap.update when the positions map resolves the key
to a populated slot. -/
theorem update_eq {h : MinHeap} {k : String} {idx : Nat} {e : Entry}
    (hidx : h.positions k = some idx) (he : h.heap[idx]? = some e) (v : Int) :
    MinHeap.update h k v =
      (if e.val < v then
        MinHeap.bubbleDownF ((h.heap.set idx (Entry.mk e.key v)).length + 1)
          ⟨h.heap.set idx (Entry.mk e.key v), h.positions⟩ idx
      else
        MinHeap.bubbleUpF (idx + 1)
          ⟨h.heap.set idx (Entry.mk e.key v), h.positions⟩ idx) := by
  simp only [MinHeap.update, hidx, he]

/-- MinHeap.update preserves heap consistency. -/
theorem update_inv {h : MinHeap} {bad : Option String} (hInv : HeapInv h bad)
    (k : String) (v : Int) : HeapInv (MinHeap.update h k v) bad := by
  cases hidx : h.positions k with
  | none => simp only [MinHeap.update, hidx]; exact hInv
  | some idx =>
    cases he : h.heap[idx]? with
    | none => simp only [MinHeap.update, hidx, he]; exact hInv
    | some e =>
      rw [update_eq hidx he v]
      split
      · exact bubbleDownF_inv bad _ _ _ (heapInv_setval hInv he v)
      · exact bubbleUpF_inv bad _ _ _ (heapInv_setval hInv he v)

/-- The array left by MinHeap.update is a permutation of the original
array with the positioned slot overwritten by the new val. -/
theorem update_perm_set {h : MinHeap} {k : String} {idx : Nat} {e : Entry}
    (hidx : h.positions k = some idx) (he : h.heap[idx]? = some e) (v : Int) :
    List.Perm (MinHeap.update h k v).heap (h.heap.set idx (Entry.mk e.key v)) := by
  rw [update_eq hidx he v]
  split
  · exact bubbleDownF_perm _ _ _
  · exact bubbleUpF_perm _ _ _

/-- A list whose matching positions are unique filters to the singleton
of the matched entry. -/
theorem filter_eq_singleton_of_unique {p : Entry → Bool} :
    ∀ (l : List Entry) (i : Nat) (e : Entry),
      l[i]? = some e → p e = true →
      (∀ (j : Nat) (e2 : Entry), l[j]? = some e2 → p e2 = true → j = i) →
      l.filter p = [e] := by
  intro l
  induction l with
  | nil => intro i e hi _ _; simp at hi
  | cons x t ih =>
    intro i e hi hpe huniq
    by_cases hpx : p x = true
    · have h0 : (0 : Nat) = i := huniq 0 x (by simp) hpx
      subst h0
      have hex : x = e := by simpa using hi
      subst hex
      have hnil : t.filter p = [] := by
        rw [List.filter_eq_nil_iff]
        intro a ha hpa
        rcases List.getElem?_of_mem ha with ⟨j, hj⟩
        have := huniq (j + 1) a (by simpa using hj) (by simpa using hpa)
        omega
      simp [List.filter_cons_of_pos hpx, hnil]
    · have hi0 : i ≠ 0 := by
        intro h0; subst h0
        have hex : x = e := by simpa using hi
        exact hpx (hex ▸ hpe)
      obtain ⟨i2, rfl⟩ : ∃ i2, i = i2 + 1 := ⟨i - 1, by omega⟩
      have huniq2 : ∀ (j : Nat) (e2 : Entry), t[j]? = some e2 → p e2 = true → j = i2 := by
        intro j e2 hj hp2
        have := huniq (j + 1) e2 (by simpa using hj) hp2
        omega
      have ht := ih i2 e (by simpa using hi) hpe huniq2
      simp [List.filter_cons_of_neg hpx, ht]

/-- A list whose matching positions are unique keeps at most one entry
after filtering. -/
theorem length_filter_le_one {p : Entry → Bool} :
    ∀ (l : List Entry),
      (∀ (i j : Nat) (e e2 : Entry), l[i]? = some e → l[j]? = some e2 →
        p e = true → p e2 = true → i = j) →
      (l.filter p).length ≤ 1 := by
  intro l
  induction l with
  | nil => intro _; simp
  | cons x t ih =>
    intro H
    by_cases hpx : p x = true
    · have ht : t.filter p = [] := by
        rw [List.filter_eq_nil_iff]
        intro a ha hpa
        rcases List.getElem?_of_mem ha with ⟨j, hj⟩
        have := H (j + 1) 0 a x (by simpa using hj) (by simp)
          (by simpa using hpa) hpx
        omega
      simp [List.filter_cons_of_pos hpx, ht]
    · have H2 : ∀ (i j : Nat) (e e2 : Entry), t[i]? = some e → t[j]? = some e2 →
          p e = true → p e2 = true → i = j := by
        intro i j e e2 hi hj he he2
        have := H (i + 1) (j + 1) e e2 (by simpa using hi) (by simpa using hj) he he2
        omega
      have := ih H2
      simpa [List.filter_cons_of_neg hpx] using this

/-- Reduction of MinHeap.insert when the key is not yet positioned. -/
theorem insert_eq_push {h : MinHeap} {k : String}
    (hnone : h.positions k = none) (v : Int) :
    MinHeap.insert h k v =
      MinHeap.bubbleUpF (h.heap ++ [Entry.mk k v]).length
        ⟨h.heap ++ [Entry.mk k v],
          StrMap.set h.positions k ((h.heap ++ [Entry.mk k v]).length - 1)⟩
        ((h.heap ++ [Entry.mk k v]).length - 1) := by
  simp only [MinHeap.insert, StrMap.has, hnone, Option.isSome_none, Bool.false_eq_true,
    if_false]

/-- MinHeap.insert preserves heap consistency. -/
theorem insert_inv {h : MinHeap} (hInv : HeapInv h none) (k : String) (v : Int) :
    HeapInv (MinHeap.insert h k v) none := by
  cases hpk : h.positions k with
  | some idx =>
    have hstep : MinHeap.insert h k v = MinHeap.update h k v := by
      simp [MinHeap.insert, StrMap.has, hpk]
    rw [hstep]
    exact update_inv hInv k v
  | none =>
    rw [insert_eq_push hpk v]
    apply bubbleUpF_inv
    constructor
    · intro k2 m hm _
      by_cases hk2 : k2 = k
      · subst hk2
        simp only [StrMap.set, if_pos rfl] at hm
        have hmlen : m = h.heap.length := by
          have hval := Option.some_inj.mp hm
          simp only [List.length_append, List.length_singleton] at hval
          omega
        subst hmlen
        exact ⟨Entry.mk k2 v, List.getElem?_concat_length _ _, rfl⟩
      · simp only [StrMap.set, if_neg hk2] at hm
        obtain ⟨e, he, hek⟩ := hInv.pos_sound k2 m hm (by simp)
        have hmlen : m < h.heap.length := (List.getElem?_eq_some_iff.mp he).1
        refine ⟨e, ?_, hek⟩
        rw [List.getElem?_append_left hmlen]
        exact he
    · intro m e hme
      rcases Nat.lt_trichotomy m h.heap.length with hlt | heqm | hgt
      · rw [List.getElem?_append_left hlt] at hme
        have hold := hInv.pos_complete m e hme
        have hk2 : e.key ≠ k := by
          intro hh
          rw [hh, hpk] at hold
          exact Option.noConfusion hold.1
        refine ⟨?_, by simp⟩
        simp only [StrMap.set, if_neg hk2]
        exact hold.1
      · subst heqm
        rw [List.getElem?_concat_length] at hme
        obtain rfl : Entry.mk k v = e := Option.some_inj.mp hme
        refine ⟨?_, by simp⟩
        simp only [StrMap.set, if_pos rfl]
        simp [List.length_append]
      · have hlen2 : (h.heap ++ [Entry.mk k v]).length ≤ m := by
          simp only [List.length_append, List.length_singleton]
          omega
        rw [List.getElem?_eq_none hlen2] at hme
        exact Option.noConfusion hme

/-- Inserting a key into a consistent heap leaves exactly one entry for
that key, carrying the inserted val. -/
theorem insert_filter {h : MinHeap} (hInv : HeapInv h none) (k : String) (v : Int) :
    (MinHeap.insert h k v).heap.filter (keyIs k) = [Entry.mk k v] := by
  cases hpk : h.positions k with
  | some idx =>
    obtain ⟨e, he, hek⟩ := hInv.pos_sound k idx hpk (by simp)
    have hlen : idx < h.heap.length := (List.getElem?_eq_some_iff.mp he).1
    have hsetf : (h.heap.set idx (Entry.mk e.key v)).filter (keyIs k)
        = [Entry.mk e.key v] := by
      apply filter_eq_singleton_of_unique _ idx (Entry.mk e.key v)
      · rw [List.getElem?_set_self hlen]
      · simp [keyIs, hek]
      · intro j e2 hj hp2
        by_cases hji : j = idx
        · exact hji
        · rw [List.getElem?_set_ne (fun hh => hji hh.symm)] at hj
          have hcomp := (hInv.pos_complete j e2 hj).1
          have he2k : e2.key = k := by simpa [keyIs] using hp2
          rw [he2k, hpk] at hcomp
          exact (Option.some_inj.mp hcomp).symm
    have hstep : MinHeap.insert h k v = MinHeap.update h k v := by
      simp [MinHeap.insert, StrMap.has, hpk]
    rw [hstep]
    have hperm := (update_perm_set hpk he v).filter (keyIs k)
    rw [hsetf] at hperm
    have hres := List.perm_singleton.mp hperm
    rw [hres, hek]
  | none =>
    rw [insert_eq_push hpk v]
    have hfl : (h.heap ++ [Entry.mk k v]).filter (keyIs k) = [Entry.mk k v] := by
      rw [List.filter_append]
      have hleft : h.heap.filter (keyIs k) = [] := by
        rw [List.filter_eq_nil_iff]
        intro a ha hpa
        rcases List.getElem?_of_mem ha with ⟨j, hj⟩
        have hak : a.key = k := by simpa [keyIs] using hpa
        have hcomp := (hInv.pos_complete j a hj).1
        rw [hak, hpk] at hcomp
        exact Option.noConfusion hcomp
      simp [hleft, keyIs]
    have hperm := (bubbleUpF_perm (h.heap ++ [Entry.mk k v]).length
      ⟨h.heap ++ [Entry.mk k v],
        StrMap.set h.positions k ((h.heap ++ [Entry.mk k v]).length - 1)⟩
      ((h.heap ++ [Entry.mk k v]).length - 1)).filter (keyIs k)
    rw [hfl] at hperm
    exact List.perm_singleton.mp hperm

/-- Deleting the stale key from the positions map restores full
consistency. -/
theorem heapInv_drop_bad {hh : MinHeap} {badk : String}
    (hInv : HeapInv hh (some badk)) :
    HeapInv ⟨hh.heap, StrMap.delete hh.positions badk⟩ none := by
  constructor
  · intro k m hm _
    by_cases hk : k = badk
    · simp [StrMap.delete, hk] at hm
    · simp only [StrMap.delete, if_neg hk] at hm
      exact hInv.pos_sound k m hm (by simp [hk])
  · intro m e hme
    have hold := hInv.pos_complete m e hme
    have hkb : e.key ≠ badk := by
      intro hh2
      exact hold.2 (by rw [hh2])
    refine ⟨?_, by simp⟩
    simp only [StrMap.delete, if_neg hkb]
    exact hold.1

/-- Moving the last array entry onto the root (as extractMin does before
bubbling down) is consistent, up to the extracted key being stale in the
positions map. -/
theorem heapInv_extract_root {pos : StrMap Nat} {mn : Entry} {rest : List Entry}
    (hInv : HeapInv ⟨mn :: rest, pos⟩ none)
    (hrest : 0 < ((mn :: rest).dropLast).length) :
    HeapInv ⟨((mn :: rest).dropLast).set 0
        ((mn :: rest).getLast (List.cons_ne_nil mn rest)),
      StrMap.set pos ((mn :: rest).getLast (List.cons_ne_nil mn rest)).key 0⟩
      (some mn.key) := by
  obtain ⟨endE, hendE⟩ : ∃ x, (mn :: rest).getLast (List.cons_ne_nil mn rest) = x :=
    ⟨_, rfl⟩
  rw [hendE]
  have hdl : ((mn :: rest).dropLast).length = rest.length := by
    simp [List.length_dropLast]
  have hrest2 : 0 < rest.length := by omega
  have hend : (mn :: rest)[rest.length]? = some endE := by
    have h1 := List.getLast?_eq_getLast (mn :: rest) (List.cons_ne_nil mn rest)
    have h2 := List.getLast?_eq_getElem? (mn :: rest)
    rw [h1, hendE] at h2
    simpa using h2.symm
  have h0 : (mn :: rest)[0]? = some mn := by simp
  have hkey : endE.key ≠ mn.key := by
    intro hh
    have := heapInv_distinct hInv hend h0 hh
    omega
  constructor
  · intro k m hm hkbad
    have hkmn : k ≠ mn.key := by
      intro hh; exact hkbad (by rw [hh])
    by_cases hke : k = endE.key
    · have hm0 : m = 0 := by
        subst hke
        simpa [StrMap.set] using hm.symm
      subst hm0
      refine ⟨endE, ?_, hke.symm⟩
      rw [List.getElem?_set_self (by omega)]
    · have hpos : pos k = some m := by
        simpa [StrMap.set, hke] using hm
      obtain ⟨e, he, hek⟩ := hInv.pos_sound k m hpos (by simp)
      have hm0 : m ≠ 0 := by
        intro hh; subst hh
        have hemn : mn = e := by simpa using he
        exact hkmn (by rw [← hek, ← hemn])
      have hmlast : m ≠ rest.length := by
        intro hh; subst hh
        rw [hend] at he
        exact hke (by rw [← hek, Option.some_inj.mp he])
      have hmlt : m < rest.length := by
        have := (List.getElem?_eq_some_iff.mp he).1
        simp at this
        omega
      refine ⟨e, ?_, hek⟩
      rw [List.getElem?_set_ne (fun hh => hm0 hh.symm), List.getElem?_dropLast]
      have hc : m < (mn :: rest).length - 1 := by simpa using hmlt
      rw [if_pos hc]
      exact he
  · intro m e hme
    by_cases hm0 : m = 0
    · subst hm0
      rw [List.getElem?_set_self (by omega)] at hme
      obtain rfl : endE = e := Option.some_inj.mp hme
      refine ⟨by simp [StrMap.set], by simpa using hkey⟩
    · rw [List.getElem?_set_ne (fun hh => hm0 hh.symm),
        List.getElem?_dropLast] at hme
      by_cases hmlt : m < (mn :: rest).length - 1
      · rw [if_pos hmlt] at hme
        have hold := hInv.pos_complete m e hme
        have hmlt2 : m < rest.length := by simpa using hmlt
        have hemn : e.key ≠ mn.key := by
          intro hh
          exact hm0 (heapInv_distinct hInv hme h0 hh)
        have heend : e.key ≠ endE.key := by
          intro hh
          have := heapInv_distinct hInv hme hend hh
          omega
        refine ⟨?_, by simpa using hemn⟩
        simp only [StrMap.set, if_neg heend]
        exact hold.1
      · rw [if_neg hmlt] at hme
        exact Option.noConfusion hme

/-- MinHeap.extractMin preserves heap consistency. -/
theorem extractMin_inv {h : MinHeap} (hInv : HeapInv h none) :
    HeapInv (MinHeap.extractMin h).2 none := by
  cases hl : h.heap with
  | nil =>
    have hred : (MinHeap.extractMin h).2 = h := by
      simp [MinHeap.extractMin, hl]
    rw [hred]
    exact hInv
  | cons mn rest =>
    have hInv2 : HeapInv ⟨mn :: rest, h.positions⟩ none := by
      rw [← hl]
      exact hInv
    by_cases hrest : 0 < ((mn :: rest).dropLast).length
    · have hrest2 : 0 < rest.length := by
        have : ((mn :: rest).dropLast).length = rest.length := by
          simp [List.length_dropLast]
        omega
      have hred : (MinHeap.extractMin h).2 =
          ⟨(MinHeap.bubbleDownF (rest.length + 1)
              ⟨((mn :: rest).dropLast).set 0
                ((mn :: rest).getLast (List.cons_ne_nil mn rest)),
               StrMap.set h.positions
                ((mn :: rest).getLast (List.cons_ne_nil mn rest)).key 0⟩ 0).heap,
            StrMap.delete
              (MinHeap.bubbleDownF (rest.length + 1)
                ⟨((mn :: rest).dropLast).set 0
                  ((mn :: rest).getLast (List.cons_ne_nil mn rest)),
                 StrMap.set h.positions
                  ((mn :: rest).getLast (List.cons_ne_nil mn rest)).key 0⟩ 0).positions
              mn.key⟩ := by
        simp [MinHeap.extractMin, hl, hrest2]
      rw [hred]
      exact heapInv_drop_bad
        (bubbleDownF_inv (some mn.key) _ _ 0 (heapInv_extract_root hInv2 hrest))
    · have hrest0 : rest = [] := by
        have : ((mn :: rest).dropLast).length = rest.length := by
          simp [List.length_dropLast]
        have hz : rest.length = 0 := by omega
        exact List.eq_nil_of_length_eq_zero hz
      subst hrest0
      have hred : (MinHeap.extractMin h).2 =
          ⟨([mn]).dropLast, StrMap.delete h.positions mn.key⟩ := by
        simp [MinHeap.extractMin, hl]
      rw [hred]
      constructor
      · intro k m hm _
        by_cases hk : k = mn.key
        · simp [StrMap.delete, hk] at hm
        · simp only [StrMap.delete, if_neg hk] at hm
          obtain ⟨e, he, hek⟩ := hInv2.pos_sound k m hm (by simp)
          have hmz : m = 0 := by
            have := (List.getElem?_eq_some_iff.mp he).1
            simp at this
            omega
          subst hmz
          have hemn : mn = e := by simpa using he
          exact absurd (by rw [← hek, ← hemn] : k = mn.key) hk
      · intro m e hme
        simp at hme

/-- The sweep loop preserves heap consistency, for any fuel. -/
theorem collectExpiredKeysF_inv :
    ∀ (fuel : Nat) (s : InMemoryDB) (now : Int),
      HeapInv s.ttlStore none →
      HeapInv (InMemoryDB.collectExpiredKeysF fuel s now).ttlStore none := by
  intro fuel
  induction fuel with
  | zero =>
    intro s now hInv
    simpa [InMemoryDB.collectExpiredKeysF] using hInv
  | succ f ih =>
    intro s now hInv
    simp only [InMemoryDB.collectExpiredKeysF]
    split
    · split
      · cases hr1 : (MinHeap.extractMin s.ttlStore).1 with
        | some ek =>
          simp only [hr1]
          exact ih _ now (extractMin_inv hInv)
        | none =>
          simp only [hr1]
          exact ih _ now (extractMin_inv hInv)
      · exact hInv
    · exact hInv

/-- Consistency of the empty heap state. -/
theorem heapInv_nil : HeapInv MinHeap.new none := by
  constructor
  · intro k m hm _
    simp [MinHeap.new, StrMap.empty] at hm
  · intro m e hme
    simp [MinHeap.new] at hme

/-- Every database state reachable through the public operations carries
a consistent TTL heap: the positions map is two-way consistent with the
backing array, hence no key occurs in the array twice. -/
theorem reachable_heapInv {s : InMemoryDB} (hs : InMemoryDB.Reachable s) :
    HeapInv s.ttlStore none := by
  induction hs with
  | new => exact heapInv_nil
  | set s k v _ ih => exact ih
  | get s k now _ ih => exact collectExpiredKeysF_inv _ _ _ ih
  | del s k _ ih => exact ih
  | expire s k seconds now _ ih => exact insert_inv ih k (now + seconds * 1000)
  | incr s k _ ih =>
    cases hv : s.store k with
    | none => simpa [InMemoryDB.incr, hv] using ih
    | some v => cases v <;> simpa [InMemoryDB.incr, hv] using ih
  | decr s k _ ih =>
    cases hv : s.store k with
    | none => simpa [InMemoryDB.decr, hv] using ih
    | some v => cases v <;> simpa [InMemoryDB.decr, hv] using ih
  | flushAll s _ ih => exact heapInv_nil

/-- A consistent heap holds each key at most once. -/
theorem heapInv_countP_le_one {h : MinHeap} (hInv : HeapInv h none)
    (k : String) : (h.heap.countP (keyIs k)) ≤ 1 := by
  rw [List.countP_eq_length_filter]
  apply length_filter_le_one
  intro i j e e2 hi hj he he2
  have hk1 : e.key = k := by simpa [keyIs] using he
  have hk2 : e2.key = k := by simpa [keyIs] using he2
  exact heapInv_distinct hInv hi hj (hk1.trans hk2.symm)

/-- The sweep never adds or rewrites a store binding: each binding either
survives unchanged or is deleted. -/
theorem collectExpiredKeysF_store :
    ∀ (fuel : Nat) (s : InMemoryDB) (now : Int) (q : String),
      (InMemoryDB.collectExpiredKeysF fuel s now).store q = s.store q
      ∨ (InMemoryDB.collectExpiredKeysF fuel s now).store q = none := by
  intro fuel
  induction fuel with
  | zero =>
    intro s now q
    left
    simp [InMemoryDB.collectExpiredKeysF]
  | succ f ih =>
    intro s now q
    simp only [InMemoryDB.collectExpiredKeysF]
    split
    · split
      · cases hr1 : (MinHeap.extractMin s.ttlStore).1 with
        | some ek =>
          simp only [hr1]
          rcases ih (InMemoryDB.del ⟨s.store, (MinHeap.extractMin s.ttlStore).2⟩ ek.key)
              now q with hh | hh
          · by_cases hq : q = ek.key
            · right
              rw [hh]
              simp [InMemoryDB.del, StrMap.delete, hq]
            · left
              rw [hh]
              simp [InMemoryDB.del, StrMap.delete, hq]
          · right
            exact hh
        | none =>
          simp only [hr1]
          exact ih ⟨s.store, (MinHeap.extractMin s.ttlStore).2⟩ now q
      · left; rfl
    · left; rfl

/-- C1: the spec claims that every sequence of insert, update and
extractMin operations keeps the min-heap order of the backing array.
Evaluated at the failing input (insert a:1, b:10, c:5, d:20 into a fresh
index, then one extractMin), the code leaves the array b:10, d:20, c:5,
whose entry c:5 at index 2 is strictly below its parent b:10 at index 0,
so the heap order predicate is false: bubbleDown examines the right
child only when the left-child comparison fails and here swaps the new
root 20 with 10 while the smaller child 5 sits on the right. -/
theorem c1_heap_order_violated_at_failing_input :
    hC1.heap = [Entry.mk "b" 10, Entry.mk "d" 20, Entry.mk "c" 5]
    ∧ heapOrderedB hC1.heap = false := by decide

/-- C2: the spec claims extractMin always returns the globally smallest
entry of the index.  From the reachable state hC1 (obtained from a fresh
index by four inserts and one extractMin), extractMin returns b:10 even
though the entry c:5 with the strictly smaller timestamp 5 is still in
the index. -/
theorem c2_extractMin_returns_non_minimum_at_failing_input :
    (MinHeap.extractMin hC1).1 = some (Entry.mk "b" 10)
    ∧ Entry.mk "c" 5 ∈ hC1.heap
    ∧ ((5 : Int) < 10) := by decide

/-- C3: the spec claims a get never returns a logically-expired value.
In the reachable state sBuried the entry c:5000 is due at clock 7000,
yet get of c at clock 7000 returns the stored value: the sweep inside
get stops at the not-yet-due root b:10000 under which the due entry is
buried (a consequence of the bubbleDown defect of C1). -/
theorem c3_expired_value_observed_at_failing_input :
    Entry.mk "c" 5000 ∈ sBuried.ttlStore.heap
    ∧ ((5000 : Int) ≤ 7000)
    ∧ (InMemoryDB.get sBuried "c" 7000).1 = some (Value.num 3) := by decide

/-- C4: the spec (and the doc comment on set in db.ts) claims set clears
any existing TTL.  After set a:1, expire a for 100 seconds at clock 0,
then set a:2, the TTL entry a:100000 is still in the Expiration Index,
and a get at clock 101000 (past the originally scheduled expiry plus one
sweep interval) finds the key expired and deleted. -/
theorem c4_ttl_not_cleared_on_overwrite_at_failing_input :
    sC4.store "a" = some (Value.num 2)
    ∧ sC4.ttlStore.heap = [Entry.mk "a" 100000]
    ∧ (InMemoryDB.get sC4 "a" 101000).1 = none
    ∧ (InMemoryDB.get sC4 "a" 101000).2.store "a" = none := by decide

/-- C5 counterexample: expire on a key absent from the value mapping is
not a no-op in db.ts: on a fresh store where key a is absent, expire
with 5 seconds at clock 0 inserts the entry a:5000 into the previously
empty Expiration Index. -/
theorem c5_expire_absent_key_not_noop :
    InMemoryDB.new.store "a" = none
    ∧ InMemoryDB.new.ttlStore.heap = []
    ∧ (InMemoryDB.expire InMemoryDB.new "a" 5 0).ttlStore.heap
        = [Entry.mk "a" 5000] := by decide

/-- C5 amended: for a key absent from the value mapping, expire leaves
the value mapping unchanged (the key stays absent) but does register a
pending expiration: the Expiration Index afterwards holds exactly one
entry for the key, with timestamp now plus seconds times 1000. -/
theorem c5_expire_absent_key_registers_entry (s : InMemoryDB)
    (hs : InMemoryDB.Reachable s) (k : String) (seconds now : Int)
    (hk : s.store k = none) :
    (InMemoryDB.expire s k seconds now).store = s.store
    ∧ (InMemoryDB.expire s k seconds now).store k = none
    ∧ (InMemoryDB.expire s k seconds now).ttlStore.heap.filter (keyIs k)
        = [Entry.mk k (now + seconds * 1000)] := by
  refine ⟨rfl, hk, ?_⟩
  exact insert_filter (reachable_heapInv hs) k (now + seconds * 1000)

/-- C5 witness: the amended statement evaluated on a fresh store. -/
theorem c5_witness :
    (InMemoryDB.expire InMemoryDB.new "b" 5 0).store = InMemoryDB.new.store
    ∧ (InMemoryDB.expire InMemoryDB.new "b" 5 0).store "b" = none
    ∧ (InMemoryDB.expire InMemoryDB.new "b" 5 0).ttlStore.heap.filter (keyIs "b")
        = [Entry.mk "b" (0 + 5 * 1000)] :=
  c5_expire_absent_key_registers_entry InMemoryDB.new InMemoryDB.Reachable.new
    "b" 5 0 rfl

/-- C6 counterexample: del does not remove the key from the Expiration
Index in db.ts: with a holding a value and the TTL entry a:5000, del of
a empties the store binding but leaves the index entry in place. -/
theorem c6_del_leaves_expiration_entry :
    (InMemoryDB.del sC6pre "a").store "a" = none
    ∧ (InMemoryDB.del sC6pre "a").ttlStore.heap = [Entry.mk "a" 5000] := by decide

/-- C6 amended: del removes the key from the value mapping, leaves every
other binding and the whole Expiration Index untouched, and never fails:
it is total and idempotent.  The orphaned index entry is only discarded
later, by the sweep, when it comes due. -/
theorem c6_del_removes_value_never_fails (s : InMemoryDB) (k : String) :
    (InMemoryDB.del s k).store k = none
    ∧ (∀ q : String, (InMemoryDB.del s k).store q = if q = k then none else s.store q)
    ∧ (InMemoryDB.del s k).ttlStore = s.ttlStore
    ∧ InMemoryDB.del (InMemoryDB.del s k) k = InMemoryDB.del s k := by
  refine ⟨by simp [InMemoryDB.del, StrMap.delete], fun q => rfl, rfl, ?_⟩
  show InMemoryDB.mk (StrMap.delete (StrMap.delete s.store k) k) s.ttlStore
      = InMemoryDB.mk (StrMap.delete s.store k) s.ttlStore
  congr 1
  funext q
  by_cases hq : q = k <;> simp [StrMap.delete, hq]

/-- C7: the spec claims set followed by get round-trips every value.
Evaluated at the failing input value 0: the key is present with value 0
after the set, yet get returns the not-found result, because get returns
store.get(key) OR-ed with null and 0 is falsy in JavaScript. -/
theorem c7_round_trip_fails_on_falsy_value :
    (InMemoryDB.set InMemoryDB.new "k" (Value.num 0)).store "k" = some (Value.num 0)
    ∧ (InMemoryDB.get (InMemoryDB.set InMemoryDB.new "k" (Value.num 0)) "k" 0).1
        = none := by decide

/-- C8: incr and decr on a key whose present value is not numeric fail
with the type-mismatch error, raised synchronously, and return the store
state entirely unchanged (the error is thrown before any mutation). -/
theorem c8_incr_decr_type_mismatch_state_unchanged (s : InMemoryDB)
    (k : String) (v : Value) (hv : s.store k = some v)
    (hnum : v.isNumber = false) :
    InMemoryDB.incr s k = (Except.error (DBError.typeMismatch k), s)
    ∧ InMemoryDB.decr s k = (Except.error (DBError.typeMismatch k), s) := by
  cases v with
  | num n => simp [Value.isNumber] at hnum
  | str s2 =>
    exact ⟨by simp [InMemoryDB.incr, hv], by simp [InMemoryDB.decr, hv]⟩
  | bool b =>
    exact ⟨by simp [InMemoryDB.incr, hv], by simp [InMemoryDB.decr, hv]⟩

/-- C8 witness: the spec scenario set s to the string text, then incr
and decr both fail and leave the state unchanged. -/
theorem c8_witness :
    InMemoryDB.incr (InMemoryDB.set InMemoryDB.new "s" (Value.str "text")) "s"
      = (Except.error (DBError.typeMismatch "s"),
         InMemoryDB.set InMemoryDB.new "s" (Value.str "text"))
    ∧ InMemoryDB.decr (InMemoryDB.set InMemoryDB.new "s" (Value.str "text")) "s"
      = (Except.error (DBError.typeMismatch "s"),
         InMemoryDB.set InMemoryDB.new "s" (Value.str "text")) :=
  c8_incr_decr_type_mismatch_state_unchanged
    (InMemoryDB.set InMemoryDB.new "s" (Value.str "text")) "s"
    (Value.str "text") (by decide) rfl

/-- C9: from any reachable state, expire of k with t1 then expire of k
with t2 leaves exactly one Expiration Index entry for k, whose timestamp
derives from the second call (its clock plus t2 times 1000); and in the
resulting state every key occurs in the index at most once. -/
theorem c9_expire_twice_single_entry (s : InMemoryDB)
    (hs : InMemoryDB.Reachable s) (k : String) (t1 t2 n1 n2 : Int)
    (hk : (s.store k).isSome = true) :
    ((InMemoryDB.expire (InMemoryDB.expire s k t1 n1) k t2 n2).ttlStore.heap.filter
        (keyIs k) = [Entry.mk k (n2 + t2 * 1000)])
    ∧ (∀ q : String,
        ((InMemoryDB.expire (InMemoryDB.expire s k t1 n1) k t2 n2).ttlStore.heap.countP
          (keyIs q)) ≤ 1) := by
  have h0 : HeapInv s.ttlStore none := reachable_heapInv hs
  have h1 : HeapInv (InMemoryDB.expire s k t1 n1).ttlStore none :=
    insert_inv h0 k (n1 + t1 * 1000)
  have h2 : HeapInv
      (InMemoryDB.expire (InMemoryDB.expire s k t1 n1) k t2 n2).ttlStore none :=
    insert_inv h1 k (n2 + t2 * 1000)
  exact ⟨insert_filter h1 k (n2 + t2 * 1000), fun q => heapInv_countP_le_one h2 q⟩

/-- C9 witness: the double expire evaluated on the reachable state
holding key a, with seconds 1 then 2, both at clock 0. -/
theorem c9_witness :
    ((InMemoryDB.expire (InMemoryDB.expire
        (InMemoryDB.set InMemoryDB.new "a" (Value.num 7)) "a" 1 0) "a" 2 0).ttlStore.heap.filter
        (keyIs "a") = [Entry.mk "a" (0 + 2 * 1000)])
    ∧ (∀ q : String,
        ((InMemoryDB.expire (InMemoryDB.expire
          (InMemoryDB.set InMemoryDB.new "a" (Value.num 7)) "a" 1 0) "a" 2 0).ttlStore.heap.countP
          (keyIs q)) ≤ 1) :=
  c9_expire_twice_single_entry (InMemoryDB.set InMemoryDB.new "a" (Value.num 7))
    (InMemoryDB.Reachable.set InMemoryDB.new "a" (Value.num 7)
      InMemoryDB.Reachable.new)
    "a" 1 2 0 0 (by decide)

/-- C10 counterexample: the claim says the sweep run by get removes
every entry whose timestamp is at most the current time.  In the
reachable state sBuried, a get (of the unrelated key a) at clock 7000
leaves the due entry c:5000 in the Expiration Index and the binding of c
in the store, because the sweep stops at the not-yet-due root. -/
theorem c10_sweep_misses_buried_due_entry :
    ((5000 : Int) ≤ 7000)
    ∧ Entry.mk "c" 5000 ∈ (InMemoryDB.get sBuried "a" 7000).2.ttlStore.heap
    ∧ (InMemoryDB.get sBuried "a" 7000).2.store "c" = some (Value.num 3) := by decide

/-- C10 amended: every get first runs the expired-key sweep and its only
state effect is that sweep; the sweep never adds or rewrites a binding,
it can only delete; and a get of one key can delete other, unrelated
keys, so an exists check can flip from true to false across a get of a
different key (shown on the concrete state sFrame). -/
theorem c10_get_sweeps_and_can_delete_unrelated_keys :
    (∀ (s : InMemoryDB) (k : String) (now : Int),
        (InMemoryDB.get s k now).2 = InMemoryDB.collectExpiredKeys s now)
    ∧ (∀ (s : InMemoryDB) (k : String) (now : Int) (q : String),
        (InMemoryDB.get s k now).2.store q = s.store q
        ∨ (InMemoryDB.get s k now).2.store q = none)
    ∧ InMemoryDB.existsKey sFrame "old" = true
    ∧ InMemoryDB.existsKey (InMemoryDB.get sFrame "req" 2000).2 "old" = false := by
  refine ⟨fun s k now => rfl, ?_, by decide, by decide⟩
  intro s k now q
  exact collectExpiredKeysF_store _ s now q
